import Mathlib

/-!
Shallow embedding of the genetic string-evolution engine
(src/genetic.rs, with the lowercase-alphabet variant of src/main.rs).

Modelling conventions:
- Rust `String` individuals over the printable-ASCII alphabet are `List Char`
  (`Element`); byte comparison on ASCII coincides with `Char` comparison.
- `f32` arithmetic is modelled by exact rationals `ℚ`; `f32::ceil` composed
  with the saturating `as usize` cast is `Nat.ceil`; `as i32` truncation
  toward zero of a rational is `ratTrunc`; `f32::round` (half away from
  zero) is `ratRound`.
- The thread-local random generator is an explicit stream of naturals with a
  position (`Rng`); each primitive draw consumes one stream value.  `choose`
  on a slice picks index `draw % length` and is `none` on an empty slice
  (the Rust `.unwrap()` panic on `None` is modelled by propagating `none`).
- The unbounded `while b == a` resampling loop of `generate_new_population`
  is given an explicit fuel parameter; exhausted fuel yields `none`, and
  genuine divergence of the Rust loop corresponds to `none` for every fuel.
- Out-of-range indexing (possible in `absolute_fitness` and `reproduce` when
  lengths differ) panics in Rust; it is modelled as a mismatch in
  `matchingCount` and as `none` in `reproduce`.  The claims below only
  exercise equal-length inputs.
-/

/-- The basic element to be evolved (Rust `type Element = String`). -/
abbrev Element := List Char

/-- An explicit random source: an infinite stream of naturals together with
the position of the next value to be consumed. -/
structure Rng where
  stream : ℕ → ℕ
  pos : ℕ

/-- Consume one value from the random source. -/
def Rng.next (r : Rng) : ℕ × Rng :=
  (r.stream r.pos, ⟨r.stream, r.pos + 1⟩)

/-- Model of `slice::choose`: a uniform random element of a list, `none` on
an empty list.  The draw is reduced modulo the length. -/
def chooseFrom {α : Type} (l : List α) (r : Rng) : Option (α × Rng) :=
  let (n, r1) := r.next
  if h : l.length = 0 then none
  else some (l.get ⟨n % l.length, Nat.mod_lt _ (Nat.pos_of_ne_zero h)⟩, r1)

/-- The printable-ASCII alphabet of src/genetic.rs, the 95 characters of the
Rust range `' '..='~'` (codes 32 to 126). -/
def alphabetList : List Char :=
  (List.range 95).map (fun i => Char.ofNat (32 + i))

/-- The lowercase alphabet of src/main.rs, the 26 characters of the Rust
range `'a'..='z'` (codes 97 to 122). -/
def alphabetLower : List Char :=
  (List.range 26).map (fun i => Char.ofNat (97 + i))

/-- Model of `IteratorRandom::choose_multiple`: repeatedly draw an index and
remove the drawn element, stopping after `n` draws or when the source list is
exhausted, so the result is `min n l.length` distinct-position elements. -/
def chooseMultiple {α : Type} : ℕ → List α → Rng → List α × Rng
  | 0, _, r => ([], r)
  | n + 1, l, r =>
    if h : l.length = 0 then ([], r)
    else
      let (k, r1) := r.next
      let i : Fin l.length := ⟨k % l.length, Nat.mod_lt _ (Nat.pos_of_ne_zero h)⟩
      let rest := chooseMultiple n (l.eraseIdx i) r1
      (l.get i :: rest.1, rest.2)

/-- Model of `SliceRandom::shuffle` as a full sample without replacement. -/
def shuffle {α : Type} (l : List α) (r : Rng) : List α × Rng :=
  chooseMultiple l.length l r

/-- Rust `generate` (src/genetic.rs lines 12-16): choose `length` characters
of the printable alphabet without replacement, then shuffle them. -/
def generate (length : ℕ) (r : Rng) : Element × Rng :=
  let (a, r1) := chooseMultiple length alphabetList r
  shuffle a r1

/-- The variant of `generate` in src/main.rs (lines 13-17), drawing from the
lowercase alphabet instead. -/
def generateLowercase (length : ℕ) (r : Rng) : Element × Rng :=
  let (a, r1) := chooseMultiple length alphabetLower r
  shuffle a r1

/-- The number of positions `i < target.length` at which `guess` agrees with
`target`, as walked by the loop of `absolute_fitness` (an out-of-range read
of `guess`, which panics in Rust, is modelled as a mismatch). -/
def matchingCount (target guess : Element) : ℕ :=
  ((List.range target.length).filter (fun i => target.get? i == guess.get? i)).length

/-- Rust `absolute_fitness` (src/genetic.rs lines 19-29): the number of
matching positions divided by the target length, with `f32` modelled by `ℚ`
(so the `0.0 / 0.0 = NaN` of an empty target becomes `0`). -/
def absolute_fitness (target guess : Element) : ℚ :=
  (matchingCount target guess : ℚ) / (target.length : ℚ)

/-- Rust `reproduce` (src/genetic.rs lines 32-39): for each position of the
first parent, choose uniformly between the characters of the two parents at that
position; a shorter second parent makes the Rust code panic, modelled as
`none`. -/
def reproduce (r : Rng) : Element → Element → Option (Element × Rng)
  | [], _ => some ([], r)
  | _ :: _, [] => none
  | c1 :: t1, c2 :: t2 =>
    (chooseFrom [c1, c2] r).bind fun p =>
      (reproduce p.2 t1 t2).map fun q => (p.1 :: q.1, q.2)

/-- Model of `rand::random_bool p`: a draw `n` yields `true` with probability
`p`, i.e. exactly when the scaled draw falls below `p`; in particular it is
constantly `false` at `p = 0` and constantly `true` at `p = 1`. -/
def randomBool (n : ℕ) (p : ℚ) : Bool :=
  decide ((((n % 1000000 : ℕ) : ℚ) / 1000000) < p)

/-- Rust `mutate` (src/genetic.rs lines 42-54): each character is replaced,
with probability `mutation_rate`, by a uniformly random character of the
printable alphabet, and kept otherwise. -/
def mutate (r : Rng) (e : Element) (mutation_rate : ℚ) : Option (Element × Rng) :=
  match e with
  | [] => some ([], r)
  | c :: t =>
    let (n, r1) := r.next
    if randomBool n mutation_rate then
      (chooseFrom alphabetList r1).bind fun p =>
        (mutate p.2 t mutation_rate).map fun q => (p.1 :: q.1, q.2)
    else
      (mutate r1 t mutation_rate).map fun q => (c :: q.1, q.2)

/-- The mating pool of `generate_new_population` (src/genetic.rs lines
80-85): each scored element is repeated `ceil(fitness * mating_pool_size)`
times. -/
def matingPool (population : List (Element × ℚ)) (mating_pool_size : ℕ) : List Element :=
  population.flatMap fun p => List.replicate (Nat.ceil (p.2 * (mating_pool_size : ℚ))) p.1

/-- The `while b == a` resampling loop of `generate_new_population`
(src/genetic.rs lines 91-94): draw a parent from the pool and redraw as long
as it equals `a` by value, with explicit fuel bounding the number of draws. -/
def pickDistinct (fuel : ℕ) (pool : List Element) (a : Element) (r : Rng) :
    Option (Element × Rng) :=
  match fuel with
  | 0 => none
  | fuel + 1 =>
    (chooseFrom pool r).bind fun p =>
      if p.1 = a then pickDistinct fuel pool a p.2 else some p

/-- One iteration of the mating loop of `generate_new_population`
(src/genetic.rs lines 90-97): draw parent `a`, draw a distinct-by-value
parent `b`, reproduce, and mutate the child. -/
def makeChild (fuel : ℕ) (pool : List Element) (mutation_rate : ℚ) (r : Rng) :
    Option (Element × Rng) :=
  (chooseFrom pool r).bind fun pa =>
    (pickDistinct fuel pool pa.1 pa.2).bind fun pb =>
      (reproduce pb.2 pa.1 pb.1).bind fun pc =>
        mutate pc.2 pc.1 mutation_rate

/-- The mating loop of `generate_new_population`, producing one child per
population slot. -/
def genPop (fuel : ℕ) (pool : List Element) (mutation_rate : ℚ) :
    ℕ → Rng → Option (List Element × Rng)
  | 0, r => some ([], r)
  | n + 1, r =>
    (makeChild fuel pool mutation_rate r).bind fun pc =>
      (genPop fuel pool mutation_rate n pc.2).map fun pr => (pc.1 :: pr.1, pr.2)

/-- Rust `generate_new_population` (src/genetic.rs lines 72-101): build the
fitness-proportionate mating pool, then mate until the population limit is
reached. -/
def generate_new_population (fuel : ℕ) (r : Rng) (population : List (Element × ℚ))
    (mating_pool_size population_size : ℕ) (mutation_rate : ℚ) :
    Option (List Element × Rng) :=
  genPop fuel (matingPool population mating_pool_size) mutation_rate population_size r

/-- Rust `average_absolute_fitness` (src/genetic.rs lines 104-109). -/
def average_absolute_fitness (target : Element) (population : List Element) : ℚ :=
  (population.foldl (fun acc guess => acc + absolute_fitness target guess) 0) /
    (population.length : ℚ)

/-- Truncation toward zero, the behaviour of the Rust `as i32` cast on a
finite float. -/
def ratTrunc (q : ℚ) : ℤ :=
  if 0 ≤ q then ⌊q⌋ else -⌊-q⌋

/-- Rounding half away from zero, the behaviour of `f32::round`. -/
def ratRound (q : ℚ) : ℤ :=
  if 0 ≤ q then ⌊q + 1 / 2⌋ else -⌊-q + 1 / 2⌋

/-- Model of `Itertools::unique`: keep the first occurrence of each value. -/
def uniqueFirst : List Element → List Element
  | [] => []
  | x :: xs => x :: uniqueFirst (xs.filter fun y => y != x)
termination_by l => l.length
decreasing_by
  simpa using Nat.lt_succ_of_le (List.length_filter_le _ xs)

/-- Rust `top` (src/genetic.rs lines 112-118): sort by the negated rounded
scaled fitness, deduplicate keeping first occurrences, and take `n`. -/
def top (target : Element) (population : List Element) (n : ℕ) : List Element :=
  (uniqueFirst (List.insertionSort
    (fun a b => -(ratRound (absolute_fitness target a * 1000)) ≤
      -(ratRound (absolute_fitness target b * 1000))) population)).take n

/-- The internal state of the program (src/genetic.rs lines 121-128). -/
structure State where
  target : Element
  population : List Element
  mating_pool_size : ℕ
  mutation_rate : ℚ
  generation : ℕ
  rng : Rng

/-- The loop generating the initial population inside `State::new`. -/
def genPopulation : ℕ → ℕ → Rng → List Element × Rng
  | 0, _, r => ([], r)
  | n + 1, len, r =>
    let (e, r1) := generate len r
    let rest := genPopulation n len r1
    (e :: rest.1, rest.2)

/-- Rust `State::new` (src/genetic.rs lines 132-150): build a state with a
randomly generated population.  Note that it performs no validation of any
argument. -/
def State.new (target : Element) (population_size mating_pool_size : ℕ)
    (mutation_rate : ℚ) (r : Rng) : State :=
  let pr := genPopulation population_size target.length r
  ⟨target, pr.1, mating_pool_size, mutation_rate, 0, pr.2⟩

/-- Rust `State::update` (src/genetic.rs lines 155-178): score the
population, generate the next one, and return the next state.  The second
component of the result is the random generator of the caller after the call
(`update` takes `&mut self` and advances `self.rng`; the new state stores a
clone of the advanced generator). -/
def State.update (fuel : ℕ) (s : State) : Option (State × Rng) :=
  let population_with_fitnesses :=
    s.population.map fun element => (element, absolute_fitness s.target element)
  (generate_new_population fuel s.rng population_with_fitnesses s.mating_pool_size
      s.population.length s.mutation_rate).map
    fun pr => (⟨s.target, pr.1, s.mating_pool_size, s.mutation_rate,
      s.generation + 1, pr.2⟩, pr.2)

/-- The sort key of the `top_word` computation in `State::get_render_state`
(src/genetic.rs line 186): `(-fitness * 100.0) as i32`. -/
def renderKey (target e : Element) : ℤ :=
  ratTrunc (-(absolute_fitness target e) * 100)

/-- The `top_word` field of `State::get_render_state`: the head of the
population stably sorted by `renderKey` (`none` models the `unwrap` panic on
an empty population). -/
def topWordOpt (s : State) : Option Element :=
  (List.insertionSort (fun a b => renderKey s.target a ≤ renderKey s.target b)
    s.population).head?

/-- A state holding only the information necessary for rendering
(src/genetic.rs lines 200-207). -/
structure RenderState where
  top_word : Element
  generation : ℕ
  average_fitness : ℚ
  total_population : ℕ
  mutation_rate : ℚ
  top_n : List Element

/-- Rust `State::get_render_state` (src/genetic.rs lines 181-196). -/
def State.get_render_state (s : State) : Option RenderState :=
  (topWordOpt s).map fun w =>
    ⟨w, s.generation, average_absolute_fitness s.target s.population,
      s.population.length, s.mutation_rate, top s.target s.population 10⟩

/-! ## Common concrete inputs -/

/-- A random source that always yields `0`. -/
def rngConst : Rng := ⟨fun _ => 0, 0⟩

/-- A random source that yields `0, 1, 2, ...` in order. -/
def rngId : Rng := ⟨fun n => n, 0⟩

/-! ## C1: the fitness function -/

theorem matchingCount_le_length (t g : Element) : matchingCount t g ≤ t.length := by
  calc matchingCount t g ≤ (List.range t.length).length :=
        List.length_filter_le _ _
    _ = t.length := List.length_range _

theorem matchingCount_self (t : Element) : matchingCount t t = t.length := by
  unfold matchingCount
  rw [List.filter_eq_self.mpr, List.length_range]
  intro a _
  simp

theorem matchingCount_eq_zero_iff (t g : Element) :
    matchingCount t g = 0 ↔ ∀ i < t.length, t.get? i ≠ g.get? i := by
  unfold matchingCount
  rw [List.length_eq_zero, List.filter_eq_nil_iff]
  constructor
  · intro h i hi
    have := h i (List.mem_range.mpr hi)
    simpa using this
  · intro h i hi
    have := h i (List.mem_range.mp hi)
    simpa using this

/-- C1 (amended): for every non-empty target and every individual whose
length equals the target length, `absolute_fitness` is the number of matching positions
divided by the target length; it lies in `[0, 1]`, equals `1` on the target
itself, and equals `0` iff no position matches.  (The original claim without
the non-emptiness restriction fails: see `c1_counterexample`.) -/
theorem c1_fitness_spec (t g : Element) (hlen : g.length = t.length) (hne : t ≠ []) :
    absolute_fitness t g = (matchingCount t g : ℚ) / (t.length : ℚ) ∧
    0 ≤ absolute_fitness t g ∧ absolute_fitness t g ≤ 1 ∧
    (g = t → absolute_fitness t g = 1) ∧
    (absolute_fitness t g = 0 ↔ ∀ i < t.length, t.get? i ≠ g.get? i) := by
  have hlpos : 0 < t.length := List.length_pos.mpr hne
  have hlq : (0 : ℚ) < (t.length : ℚ) := by exact_mod_cast hlpos
  refine ⟨rfl, ?_, ?_, ?_, ?_⟩
  · exact div_nonneg (by positivity) (le_of_lt hlq)
  · rw [absolute_fitness, div_le_one hlq]
    exact_mod_cast matchingCount_le_length t g
  · intro hgt
    subst hgt
    rw [absolute_fitness, matchingCount_self]
    exact div_self (ne_of_gt hlq)
  · rw [absolute_fitness, div_eq_zero_iff]
    constructor
    · intro h
      rcases h with h | h
      · exact (matchingCount_eq_zero_iff t g).mp (by exact_mod_cast h)
      · exact absurd h (ne_of_gt hlq)
    · intro h
      left
      exact_mod_cast (matchingCount_eq_zero_iff t g).mpr h

/-- The concrete element `ab`. -/
def aB : Element := ['a', 'b']

/-- The concrete element `cb`. -/
def cB : Element := ['c', 'b']

/-- Witness for C1: the amended theorem applied at the concrete target `ab`
and the half-matching individual `cb`. -/
theorem c1_fitness_witness :
    0 ≤ absolute_fitness aB cB ∧
    absolute_fitness aB cB ≤ 1 := by
  have h := c1_fitness_spec aB cB (by simp [aB, cB]) (by simp [aB])
  exact ⟨h.2.1, h.2.2.1⟩

/-- Counterexample for C1 as stated: at the empty target the claim asserts
`fitness(target, target) = 1`, but the code computes `0.0 / 0.0` (`NaN` in
Rust, `0` in the rational model), which is not `1`. -/
theorem c1_counterexample : absolute_fitness ([] : Element) ([] : Element) ≠ 1 := by
  simp [absolute_fitness, matchingCount]

/-! ## C3: the mating pool -/

/-- C3 (amended): in the mating pool, the total multiplicity of a value `e`
is the sum over the scored entries carrying `e` of `ceil(fitness * factor)`
(so for pairwise-distinct individuals it is exactly that ceiling); an entry
of fitness `0` contributes no copies; and, provided the factor is at least
`1`, every entry with positive fitness is represented in the pool.  (The
original claim, quantified over every `pool_size_factor`, fails at factor
`0`: see `c3_counterexample`.) -/
theorem c3_mating_pool_spec (pop : List (Element × ℚ)) (k : ℕ) (e : Element) (f : ℚ) :
    List.count e (matingPool pop k) =
      (pop.map fun p => if p.1 = e then Nat.ceil (p.2 * (k : ℚ)) else 0).sum ∧
    (f = 0 → Nat.ceil (f * (k : ℚ)) = 0) ∧
    ((e, f) ∈ pop → 0 < f → 1 ≤ k → e ∈ matingPool pop k) := by
  refine ⟨?_, ?_, ?_⟩
  · rw [matingPool, List.count_flatMap]
    congr 1
    apply List.map_congr_left
    intro p _
    by_cases hp : p.1 = e
    · simp [hp, List.count_replicate]
    · simp [hp, List.count_replicate, Ne.symm hp]
  · intro hf
    simp [hf]
  · intro hmem hf hk
    rw [matingPool]
    apply List.mem_flatMap.mpr
    refine ⟨(e, f), hmem, ?_⟩
    apply List.mem_replicate.mpr
    refine ⟨?_, rfl⟩
    have hkq : (1 : ℚ) ≤ (k : ℚ) := by exact_mod_cast hk
    have : 0 < f * (k : ℚ) := mul_pos hf (lt_of_lt_of_le one_pos hkq)
    exact Nat.pos_iff_ne_zero.mp (Nat.ceil_pos.mpr this)

/-- Witness for C3: at factor `1` the individual `ab` with fitness `1` is
present in the pool built from the singleton scored population. -/
theorem c3_mating_pool_witness : aB ∈ matingPool [(aB, (1 : ℚ))] 1 :=
  (c3_mating_pool_spec [(aB, (1 : ℚ))] 1 aB 1).2.2 (by simp) one_pos (le_refl 1)

/-- Counterexample for C3 as stated: with `pool_size_factor = 0` the
individual `ab` has nonzero fitness `1` yet appears zero times in the pool,
because `ceil(1 * 0) = 0`. -/
theorem c3_counterexample :
    (aB, (1 : ℚ)) ∈ [(aB, (1 : ℚ))] ∧ (1 : ℚ) ≠ 0 ∧
      aB ∉ matingPool [(aB, (1 : ℚ))] 0 := by
  refine ⟨by simp, one_ne_zero, ?_⟩
  simp [matingPool]

/-! ## C4: reproduction (uniform per-position crossover) -/

theorem chooseFrom_pair {α : Type} (a b : α) (r : Rng) :
    chooseFrom [a, b] r = some (a, (r.next).2) ∨
      chooseFrom [a, b] r = some (b, (r.next).2) := by
  rcases Nat.mod_two_eq_zero_or_one (r.next).1 with h | h
  · left
    simp [chooseFrom, Rng.next] at h ⊢
    simp [h]
  · right
    simp [chooseFrom, Rng.next] at h ⊢
    simp [h]

theorem reproduce_total : ∀ (e1 e2 : Element) (r : Rng), e1.length = e2.length →
    ∃ c r2, reproduce r e1 e2 = some (c, r2) ∧ c.length = e1.length ∧
      ∀ i, c.get? i = e1.get? i ∨ c.get? i = e2.get? i := by
  intro e1
  induction e1 with
  | nil =>
    intro e2 r _
    exact ⟨[], r, rfl, rfl, fun i => Or.inl rfl⟩
  | cons c1 t1 ih =>
    intro e2 r h
    match e2 with
    | [] => simp at h
    | c2 :: t2 =>
      have ht : t1.length = t2.length := by simpa using h
      obtain ⟨c, r2, hc, hlen, hchar⟩ := ih t2 (r.next).2 ht
      rcases chooseFrom_pair c1 c2 r with hp | hp
      · refine ⟨c1 :: c, r2, ?_, by simpa using hlen, ?_⟩
        · rw [reproduce, hp]
          simp [hc]
        · intro i
          match i with
          | 0 => exact Or.inl rfl
          | i + 1 => exact hchar i
      · refine ⟨c2 :: c, r2, ?_, by simpa using hlen, ?_⟩
        · rw [reproduce, hp]
          simp [hc]
        · intro i
          match i with
          | 0 => exact Or.inr rfl
          | i + 1 => exact hchar i

/-- C4: for equal-length parents, `reproduce` succeeds, the child has the
length of the parents, and at every position the character of the child is the
character of parent A or of parent B at that position. -/
theorem c4_reproduce_spec (r : Rng) (e1 e2 : Element) (h : e1.length = e2.length) :
    (∃ p, reproduce r e1 e2 = some p) ∧
    ∀ c, (reproduce r e1 e2).map Prod.fst = some c →
      c.length = e1.length ∧ ∀ i, c.get? i = e1.get? i ∨ c.get? i = e2.get? i := by
  obtain ⟨c, r2, hc, hlen, hchar⟩ := reproduce_total e1 e2 r h
  refine ⟨⟨(c, r2), hc⟩, ?_⟩
  intro c2 hc2
  rw [hc] at hc2
  simp at hc2
  subst hc2
  exact ⟨hlen, hchar⟩

/-- Witness for C4: the theorem applied to the concrete parents `ab` and
`cb` with the all-zeros random source, whose child is `ab` itself. -/
theorem c4_reproduce_witness :
    aB.length = aB.length ∧
      (aB.get? 0 = aB.get? 0 ∨ aB.get? 0 = cB.get? 0) := by
  have h := (c4_reproduce_spec rngConst aB cB (by simp [aB, cB])).2 aB
    (by with_unfolding_all decide)
  exact ⟨h.1, h.2 0⟩

/-! ## C9: mutation at the extreme rates -/

theorem randomBool_zero (n : ℕ) : randomBool n 0 = false := by
  unfold randomBool
  simp only [decide_eq_false_iff_not, not_lt]
  positivity

theorem randomBool_one (n : ℕ) : randomBool n 1 = true := by
  unfold randomBool
  simp only [decide_eq_true_eq]
  rw [div_lt_one (by norm_num)]
  exact_mod_cast Nat.mod_lt n (by norm_num)

theorem chooseFrom_eq_some {α : Type} (l : List α) (r : Rng) (h : l.length ≠ 0) :
    chooseFrom l r =
      some (l.get ⟨(r.next).1 % l.length, Nat.mod_lt _ (Nat.pos_of_ne_zero h)⟩,
        (r.next).2) := by
  unfold chooseFrom
  simp [h]

theorem mutate_zero : ∀ (e : Element) (r : Rng),
    (mutate r e 0).map Prod.fst = some e := by
  intro e
  induction e with
  | nil => intro r; rfl
  | cons c t ih =>
    intro r
    rw [mutate]
    simp only [randomBool_zero, Bool.false_eq_true, if_false]
    have := ih (r.next).2
    rcases hm : mutate (r.next).2 t 0 with _ | q
    · rw [hm] at this
      simp at this
    · rw [hm] at this
      simp at this
      simp [hm, this]

theorem mutate_one_shape : ∀ (e : Element) (r : Rng) (l : Element),
    (mutate r e 1).map Prod.fst = some l →
      l.length = e.length ∧ ∀ c ∈ l, c ∈ alphabetList := by
  intro e
  induction e with
  | nil =>
    intro r l h
    simp [mutate] at h
    subst h
    simp
  | cons c t ih =>
    intro r l h
    rw [mutate] at h
    simp only [randomBool_one, if_true] at h
    rw [chooseFrom_eq_some alphabetList (r.next).2 (by simp [alphabetList])] at h
    simp only [Option.some_bind] at h
    rcases hm : mutate ((r.next).2.next).2 t 1 with _ | q
    · rw [hm] at h
      simp at h
    · rw [hm] at h
      simp at h
      have := ih ((r.next).2.next).2 q.1 (by rw [hm]; rfl)
      subst h
      refine ⟨by simpa using this.1, ?_⟩
      intro x hx
      rcases List.mem_cons.mp hx with hx | hx
      · subst hx
        exact List.getElem_mem _
      · exact this.2 x hx

theorem mutate_one_blind : ∀ (e e2 : Element) (r : Rng), e.length = e2.length →
    (mutate r e 1).map Prod.fst = (mutate r e2 1).map Prod.fst := by
  intro e
  induction e with
  | nil =>
    intro e2 r h
    match e2 with
    | [] => rfl
  | cons c t ih =>
    intro e2 r h
    match e2 with
    | c2 :: t2 =>
      have ht : t.length = t2.length := by simpa using h
      rw [mutate, mutate]
      simp only [randomBool_one, if_true]
      rw [chooseFrom_eq_some alphabetList (r.next).2 (by simp [alphabetList])]
      simp only [Option.some_bind, Option.map_map]
      have := ih t2 ((r.next).2.next).2 ht
      rcases hm : mutate ((r.next).2.next).2 t 1 with _ | q <;>
        rcases hm2 : mutate ((r.next).2.next).2 t2 1 with _ | q2 <;>
          rw [hm, hm2] at this <;> simp_all

/-- C9: `mutate` at rate `0` returns the individual unchanged; `mutate` at
rate `1` ignores every input character (same-length inputs give identical
results, i.e. every character is replaced) and produces only characters of
the alphabet, preserving the length. -/
theorem c9_mutate_spec (r : Rng) (e : Element) :
    ((mutate r e 0).map Prod.fst = some e) ∧
    (∀ e2, e.length = e2.length →
      (mutate r e 1).map Prod.fst = (mutate r e2 1).map Prod.fst) ∧
    (∀ l, (mutate r e 1).map Prod.fst = some l →
      l.length = e.length ∧ ∀ c ∈ l, c ∈ alphabetList) :=
  ⟨mutate_zero e r, fun e2 h => mutate_one_blind e e2 r h,
    fun l h => mutate_one_shape e r l h⟩

/-- The concrete element `x`. -/
def xE : Element := ['x']

/-- The concrete element `y`. -/
def yE : Element := ['y']

/-- Witness for C9: mutation of `x` under the all-zeros random source is the
identity at rate `0`, agrees at rate `1` with the mutation of `y`, and at
rate `1` yields the alphabet character at index `0`, a space. -/
theorem c9_mutate_witness :
    (mutate rngConst xE 0).map Prod.fst = some xE ∧
    (mutate rngConst xE 1).map Prod.fst = (mutate rngConst yE 1).map Prod.fst ∧
    (' ' ∈ alphabetList) := by
  refine ⟨(c9_mutate_spec rngConst xE).1,
    (c9_mutate_spec rngConst xE).2.1 yE (by simp [xE, yE]), ?_⟩
  have h := (c9_mutate_spec rngConst xE).2.2 [' '] (by with_unfolding_all decide)
  exact h.2 ' ' (by simp)

/-! ## C2 and C8: one generation advance -/

theorem genPop_length : ∀ (n : ℕ) (fuel : ℕ) (pool : List Element) (rate : ℚ)
    (r : Rng) (res : List Element × Rng),
    genPop fuel pool rate n r = some res → res.1.length = n := by
  intro n
  induction n with
  | zero =>
    intro fuel pool rate r res h
    simp [genPop] at h
    simp [← h]
  | succ n ih =>
    intro fuel pool rate r res h
    rw [genPop] at h
    rcases hc : makeChild fuel pool rate r with _ | pc
    · rw [hc] at h
      simp at h
    · rw [hc] at h
      simp only [Option.some_bind] at h
      rcases hg : genPop fuel pool rate n pc.2 with _ | pr
      · rw [hg] at h
        simp at h
      · rw [hg] at h
        simp at h
        have := ih fuel pool rate pc.2 pr hg
        rw [← h]
        simpa using this

/-- C2: whenever `State.update` returns a next state, the population of that state has exactly as many individuals as the population of the input state
(the mating loop runs once per slot of the old population). -/
theorem c2_update_preserves_size (fuel : ℕ) (s : State)
    (h : (State.update fuel s).isSome = true) :
    ((State.update fuel s).get h).1.population.length = s.population.length := by
  rcases ho : generate_new_population fuel s.rng
      (s.population.map fun element => (element, absolute_fitness s.target element))
      s.mating_pool_size s.population.length s.mutation_rate with _ | pr
  · exfalso
    unfold State.update at h
    simp only [ho] at h
    simp at h
  · have hlen := genPop_length s.population.length fuel _ s.mutation_rate s.rng pr ho
    unfold State.update
    simp only [ho]
    simpa using hlen

/-- C8 (amended): whenever `State.update` returns, the new state keeps the
old target and parameters, increments the generation counter, and its stored
random generator is exactly the generator of the caller as advanced by the call
(`update` takes `&mut self` and consumes draws from `self.rng`; the original
claim that the randomizer state is unchanged fails, see
`c8_counterexample`). -/
theorem c8_update_frame (fuel : ℕ) (s : State)
    (h : (State.update fuel s).isSome = true) :
    ((State.update fuel s).get h).1.target = s.target ∧
    ((State.update fuel s).get h).1.mating_pool_size = s.mating_pool_size ∧
    ((State.update fuel s).get h).1.mutation_rate = s.mutation_rate ∧
    ((State.update fuel s).get h).1.generation = s.generation + 1 ∧
    ((State.update fuel s).get h).1.rng = ((State.update fuel s).get h).2 := by
  rcases ho : generate_new_population fuel s.rng
      (s.population.map fun element => (element, absolute_fitness s.target element))
      s.mating_pool_size s.population.length s.mutation_rate with _ | pr
  · exfalso
    unfold State.update at h
    simp only [ho] at h
    simp at h
  · unfold State.update
    simp only [ho]
    simp

/-- The concrete state used to exercise `State.update`: target `ab`,
population `[ab, cb]`, mating-pool factor `2`, mutation rate `0`, and the
identity-stream random source. -/
def sEx : State := ⟨aB, [aB, cB], 2, 0, 0, rngId⟩

theorem updateEx_isSome : (State.update 5 sEx).isSome = true := by
  with_unfolding_all decide

/-- Witness for C2: advancing the concrete two-element state keeps the
population size. -/
theorem c2_update_witness :
    ((State.update 5 sEx).get updateEx_isSome).1.population.length =
      sEx.population.length :=
  c2_update_preserves_size 5 sEx updateEx_isSome

/-- Witness for C8: the concrete advance keeps the target and increments the
generation counter. -/
theorem c8_update_witness :
    ((State.update 5 sEx).get updateEx_isSome).1.target = sEx.target ∧
    ((State.update 5 sEx).get updateEx_isSome).1.generation = sEx.generation + 1 :=
  ⟨(c8_update_frame 5 sEx updateEx_isSome).1,
    (c8_update_frame 5 sEx updateEx_isSome).2.2.2.1⟩

/-- Counterexample for C8 as stated: the call consumes random draws, so the
randomizer of the caller after the call differs from its state before the call
(its position has advanced). -/
theorem c8_counterexample :
    ((State.update 5 sEx).get updateEx_isSome).2.pos ≠ sEx.rng.pos := by
  with_unfolding_all decide

/-! ## C5: the parent-resampling loop on a single-value pool -/

/-- C5: on a mating pool whose entries are all the single value `x`, the
`while b == a` resampling loop never terminates — for every bound on the
number of draws and every random source, no parent `b` is ever produced
(modelling the unguarded infinite loop of the Rust code). -/
theorem c5_singleton_pool_diverges :
    ∀ (fuel : ℕ) (r : Rng), pickDistinct fuel [xE] xE r = none := by
  intro fuel
  induction fuel with
  | zero => intro r; rfl
  | succ n ih =>
    intro r
    rw [pickDistinct, chooseFrom_eq_some [xE] r (by simp)]
    simp [ih]

/-! ## C6: initialization performs no validation -/

/-- C6: `State::new` rejects nothing.  Evaluated at the invalid
configuration of the claim — empty target, population size `0`, mating-pool
factor `0`, mutation rate `2 ∉ [0,1]` — it still constructs a state, storing
the out-of-range mutation rate unclamped. -/
theorem c6_new_accepts_invalid_config :
    (State.new [] 0 0 2 rngConst).population = [] ∧
    (State.new [] 0 0 2 rngConst).mutation_rate = 2 ∧
    (State.new [] 0 0 2 rngConst).target = [] ∧
    (State.new [] 0 0 2 rngConst).generation = 0 :=
  ⟨rfl, rfl, rfl, rfl⟩

/-! ## C10: random generation of individuals -/

theorem chooseMultiple_length {α : Type} : ∀ (n : ℕ) (l : List α) (r : Rng),
    (chooseMultiple n l r).1.length = min n l.length := by
  intro n
  induction n with
  | zero => intro l r; simp [chooseMultiple]
  | succ n ih =>
    intro l r
    rw [chooseMultiple]
    by_cases h : l.length = 0
    · simp [h]
    · simp only [dif_neg h]
      have he := ih (l.eraseIdx ((r.next).1 % l.length)) (r.next).2
      simp only [List.length_cons, he, List.length_eraseIdx]
      have hpos : 0 < l.length := Nat.pos_of_ne_zero h
      have hlt : (r.next).1 % l.length < l.length := Nat.mod_lt _ hpos
      simp only [if_pos hlt]
      omega

theorem chooseMultiple_subset {α : Type} : ∀ (n : ℕ) (l : List α) (r : Rng) (x : α),
    x ∈ (chooseMultiple n l r).1 → x ∈ l := by
  intro n
  induction n with
  | zero => intro l r x hx; simp [chooseMultiple] at hx
  | succ n ih =>
    intro l r x hx
    rw [chooseMultiple] at hx
    by_cases h : l.length = 0
    · simp [h] at hx
    · simp only [dif_neg h] at hx
      rcases List.mem_cons.mp hx with hx | hx
      · subst hx
        exact List.getElem_mem _
      · exact (List.eraseIdx_sublist l _).subset
          (ih (l.eraseIdx ((r.next).1 % l.length)) (r.next).2 x hx)

theorem not_mem_eraseIdx_self {α : Type} {l : List α} (hnd : l.Nodup)
    {i : ℕ} (hi : i < l.length) : l.get ⟨i, hi⟩ ∉ l.eraseIdx i := by
  intro hmem
  obtain ⟨j, hj, hji, hval⟩ := List.mem_eraseIdx_iff_getElem.mp hmem
  have heq : (⟨j, hj⟩ : Fin l.length) = ⟨i, hi⟩ :=
    List.nodup_iff_injective_getElem.mp hnd (by simpa using hval)
  exact hji (by simpa using congrArg Fin.val heq)

theorem chooseMultiple_nodup {α : Type} : ∀ (n : ℕ) (l : List α) (r : Rng),
    l.Nodup → (chooseMultiple n l r).1.Nodup := by
  intro n
  induction n with
  | zero => intro l r _; simp [chooseMultiple]
  | succ n ih =>
    intro l r hnd
    rw [chooseMultiple]
    by_cases h : l.length = 0
    · simp [h]
    · simp only [dif_neg h]
      refine List.nodup_cons.mpr ⟨?_, ?_⟩
      · intro hmem
        exact not_mem_eraseIdx_self hnd (Nat.mod_lt _ (Nat.pos_of_ne_zero h))
          (chooseMultiple_subset n _ (r.next).2 _ hmem)
      · exact ih _ (r.next).2
          ((List.eraseIdx_sublist l _).nodup hnd)

theorem alphabetList_nodup : alphabetList.Nodup := by decide

theorem alphabetLower_nodup : alphabetLower.Nodup := by decide

theorem alphabetList_length : alphabetList.length = 95 := by
  simp [alphabetList]

theorem alphabetLower_length : alphabetLower.length = 26 := by
  simp [alphabetLower]

/-- C10: `generate` returns an individual of pairwise-distinct characters of
the printable alphabet whose length is `min length 95`, and the lowercase
variant of src/main.rs returns pairwise-distinct lowercase characters with
length `min length 26`; a request longer than the alphabet silently yields a
shorter individual. -/
theorem c10_generate_spec (length : ℕ) (r : Rng) :
    ((generate length r).1.length = min length 95 ∧
      (generate length r).1.Nodup ∧
      ∀ c ∈ (generate length r).1, c ∈ alphabetList) ∧
    ((generateLowercase length r).1.length = min length 26 ∧
      (generateLowercase length r).1.Nodup ∧
      ∀ c ∈ (generateLowercase length r).1, c ∈ alphabetLower) := by
  constructor
  · unfold generate shuffle
    refine ⟨?_, ?_, ?_⟩
    · rw [chooseMultiple_length, chooseMultiple_length, alphabetList_length]
      exact Nat.min_self _
    · exact chooseMultiple_nodup _ _ _
        (chooseMultiple_nodup _ _ _ alphabetList_nodup)
    · intro c hc
      exact chooseMultiple_subset _ _ _ _ (chooseMultiple_subset _ _ _ _ hc)
  · unfold generateLowercase shuffle
    refine ⟨?_, ?_, ?_⟩
    · rw [chooseMultiple_length, chooseMultiple_length, alphabetLower_length]
      exact Nat.min_self _
    · exact chooseMultiple_nodup _ _ _
        (chooseMultiple_nodup _ _ _ alphabetLower_nodup)
    · intro c hc
      exact chooseMultiple_subset _ _ _ _ (chooseMultiple_subset _ _ _ _ hc)

/-- Witness for C10: a generated two-character individual under the
all-zeros random source has length `min 2 95 = 2`, and any of its characters
that equals a space belongs to the alphabet. -/
theorem c10_generate_witness :
    (generate 2 rngConst).1.length = min 2 95 ∧
    (' ' ∈ (generate 2 rngConst).1 → ' ' ∈ alphabetList) :=
  ⟨((c10_generate_spec 2 rngConst).1).1,
    fun h => ((c10_generate_spec 2 rngConst).1).2.2 ' ' h⟩

/-! ## C7: the reported best individual -/

/-- The first element of a list attaining the minimal key, the
characterisation of the head of a stable sort by that key. -/
def firstMinBy (key : Element → ℤ) : List Element → Option Element
  | [] => none
  | x :: xs =>
    match firstMinBy key xs with
    | none => some x
    | some m => if key x ≤ key m then some x else some m

theorem firstMinBy_eq_none {key : Element → ℤ} :
    ∀ {l : List Element}, firstMinBy key l = none → l = [] := by
  intro l h
  match l with
  | [] => rfl
  | x :: xs =>
    rw [firstMinBy] at h
    rcases hf : firstMinBy key xs with _ | m <;> rw [hf] at h
    · simp at h
    · by_cases hk : key x ≤ key m <;> simp [hk] at h

theorem firstMinBy_mem (key : Element → ℤ) :
    ∀ (l : List Element) (m : Element), firstMinBy key l = some m → m ∈ l := by
  intro l
  induction l with
  | nil => intro m h; simp [firstMinBy] at h
  | cons x xs ih =>
    intro m h
    rw [firstMinBy] at h
    rcases hf : firstMinBy key xs with _ | m2 <;> rw [hf] at h
    · simp at h
      simp [h]
    · by_cases hk : key x ≤ key m2 <;> simp [hk] at h
      · simp [h]
      · exact List.mem_cons_of_mem x (ih m (h ▸ hf))

theorem firstMinBy_le (key : Element → ℤ) :
    ∀ (l : List Element) (m : Element), firstMinBy key l = some m →
      ∀ x ∈ l, key m ≤ key x := by
  intro l
  induction l with
  | nil => intro m h; simp [firstMinBy] at h
  | cons x xs ih =>
    intro m h y hy
    rw [firstMinBy] at h
    rcases hf : firstMinBy key xs with _ | m2 <;> simp only [hf] at h
    · have hxs : xs = [] := firstMinBy_eq_none hf
      subst hxs
      simp at h hy
      rw [hy, h]
    · rcases List.mem_cons.mp hy with hyx | hyxs
      · by_cases hk : key x ≤ key m2
        · rw [if_pos hk] at h
          simp at h
          rw [← h, hyx]
        · rw [if_neg hk] at h
          simp at h
          rw [← h, hyx]
          exact le_of_lt (lt_of_not_le hk)
      · by_cases hk : key x ≤ key m2
        · rw [if_pos hk] at h
          simp at h
          rw [← h]
          exact le_trans hk (ih m2 hf y hyxs)
        · rw [if_neg hk] at h
          simp at h
          rw [← h]
          exact ih m2 hf y hyxs

theorem head_insertionSort_key (key : Element → ℤ) (l : List Element) :
    (List.insertionSort (fun a b => key a ≤ key b) l).head? = firstMinBy key l := by
  induction l with
  | nil => rfl
  | cons x xs ih =>
    rw [List.insertionSort]
    rcases hs : List.insertionSort (fun a b => key a ≤ key b) xs with _ | ⟨h, t⟩
    · have hxs : xs = [] := by
        have hp := List.perm_insertionSort (fun a b => key a ≤ key b) xs
        rw [hs] at hp
        exact (List.Perm.nil_eq hp).symm
      subst hxs
      simp [firstMinBy, List.orderedInsert]
    · have ih2 : firstMinBy key xs = some h := by
        rw [← ih, hs]
        rfl
      rw [List.orderedInsert, firstMinBy, ih2]
      by_cases hk : key x ≤ key h <;> simp [hk]

/-- C7 (amended): the `top_word` reported by `get_render_state` is the first
element of the population attaining the minimal quantized sort key
`(-fitness * 100.0) as i32`; in particular it belongs to the population and
its key is minimal (equivalently, its truncated percentage fitness
`⌊fitness * 100⌋` is maximal).  Because the key truncates the fitness to
whole percents, the reported individual need not have maximal exact fitness:
see `c7_counterexample`. -/
theorem c7_top_word_spec (s : State) :
    topWordOpt s = firstMinBy (renderKey s.target) s.population ∧
    ∀ rs, State.get_render_state s = some rs →
      rs.top_word ∈ s.population ∧
      ∀ x ∈ s.population, renderKey s.target rs.top_word ≤ renderKey s.target x := by
  have h1 : topWordOpt s = firstMinBy (renderKey s.target) s.population :=
    head_insertionSort_key _ _
  refine ⟨h1, ?_⟩
  intro rs hrs
  unfold State.get_render_state at hrs
  rcases ht : topWordOpt s with _ | w
  · rw [ht] at hrs
    simp at hrs
  · rw [ht] at hrs
    simp at hrs
    have hw : firstMinBy (renderKey s.target) s.population = some w := by
      rw [← h1, ht]
    have hmem := firstMinBy_mem _ _ _ hw
    have hle := firstMinBy_le _ _ _ hw
    rw [← hrs]
    exact ⟨hmem, hle⟩

/-- A target of 101 copies of `a`. -/
def t101 : Element := List.replicate 101 'a'

/-- An individual matching the 101-character target nowhere (fitness `0`). -/
def e101b : Element := List.replicate 101 'b'

/-- An individual matching the 101-character target at exactly one position
(fitness `1/101`). -/
def e101a : Element := 'a' :: List.replicate 100 'b'

/-- A state whose population holds the zero-fitness individual first and the
`1/101`-fitness individual second. -/
def s101 : State := ⟨t101, [e101b, e101a], 1, 0, 0, rngConst⟩

set_option maxRecDepth 20000 in
/-- Counterexample for C7 as stated: both individuals have sort key
`-(fitness * 100) as i32 = 0` (since `⌊100/101⌋ = 0`), so the stable sort
keeps population order and `top_word` is the zero-fitness individual even
though the population contains one of strictly greater fitness.  The
reported best individual is therefore not an individual of maximal
fitness. -/
theorem c7_counterexample :
    topWordOpt s101 = some e101b ∧
    e101a ∈ s101.population ∧
    absolute_fitness s101.target e101b < absolute_fitness s101.target e101a := by
  refine ⟨?_, ?_, ?_⟩ <;> with_unfolding_all decide

theorem renderEx_isSome : (State.get_render_state sEx).isSome = true := by
  with_unfolding_all decide

/-- Witness for C7: on the concrete state `sEx` the reported best individual
is in the population and its sort key is at most the key of the concrete
population member `cb`. -/
theorem c7_top_word_witness :
    ((State.get_render_state sEx).get renderEx_isSome).top_word ∈ sEx.population ∧
    renderKey sEx.target
        ((State.get_render_state sEx).get renderEx_isSome).top_word ≤
      renderKey sEx.target cB := by
  have h := (c7_top_word_spec sEx).2 ((State.get_render_state sEx).get renderEx_isSome)
    (Option.some_get renderEx_isSome).symm
  exact ⟨h.1, h.2 cB (by simp [sEx])⟩
